import Mathlib

/-!
Verification of the tilde-expansion library (`zeroten-expand-tilde`, file
`src/lib.rs`) against its specification.

Embedding of the data model: a Rust `Path` is interpreted through its
component sequence, exactly as `Path::components()` produces it on Unix
(`Prefix` components are Windows-only and are not modelled).  This is
faithful to the library's observable behaviour because `PartialEq for Path`
compares `components()`, so two paths are the same value exactly when their
component lists coincide.  A canonical component list (one actually
producible by `Path::components()`) has `RootDir` or `CurDir` only in head
position and every later component a `ParentDir` or a `Normal` name that is
non-empty, not `.`, not `..` and separator-free; the predicate `wfPath`
captures this.

Operations embedded from the source and from the documented behaviour of
`std::path`:
  - `stripTilde` is `path.strip_prefix("~")`: the prefix `"~"` has the single
    component `Normal("~")`, so stripping succeeds exactly when the first
    component is `Normal("~")`, returning the remaining components (the
    iterator's `as_path` left-trims non-components, so on a canonical list
    the remainder is just the tail).
  - `join` is `Path::join` / `PathBuf::push`: an argument with a root
    replaces the receiver entirely; otherwise the two strings are
    concatenated with a separator, whose component reading is list
    concatenation except that a leading `.` component of the argument is no
    longer at the start of the result and disappears (and joining onto the
    empty path yields the argument itself).
  - `expand_tilde_with`, `home_dir`, `expand_tilde` and the `ExpandTilde`
    trait methods are transcribed from `src/lib.rs`; the OS home-directory
    mechanism (`std::env::home_dir()` or the `home` crate) is external to the
    repository, so `home_dir` takes its outcome as an explicit
    `Option RPath` parameter, where `none` models "no value" and the empty
    list models the zero-length path (a path's `as_os_str()` is empty exactly
    when it has no components).
-/

/-- A single path component, after `std::path::Component` (Unix: no
`Prefix`). -/
inductive PComp where
  | rootDir
  | curDir
  | parentDir
  | normal (s : String)
deriving DecidableEq, Repr

/-- A path value, as its canonical component sequence. -/
abbrev RPath := List PComp

/-- A string that `Path::components()` can emit as a `Normal` component:
non-empty, not `.`, not `..`, and containing no separator. -/
def validName (s : String) : Bool :=
  decide (s ≠ "") && decide (s ≠ ".") && decide (s ≠ "..") && !(s.data.contains '/')

/-- Components that may occur after the first position of a canonical
component list: `ParentDir` or a valid `Normal` name. -/
def isBodyComp : PComp → Bool
  | PComp.parentDir => true
  | PComp.normal s => validName s
  | _ => false

/-- Components allowed in head position: additionally `RootDir` and
`CurDir`. -/
def headComp (c : PComp) : Bool :=
  c == PComp.rootDir || c == PComp.curDir || isBodyComp c

/-- Canonical component lists: exactly those `Path::components()` produces. -/
def wfPath : RPath → Bool
  | [] => true
  | c :: rest => headComp c && rest.all isBodyComp

/-- `Path::has_root` (on Unix, the same as `is_absolute`). -/
def hasRoot : RPath → Bool
  | PComp.rootDir :: _ => true
  | _ => false

/-- Drops a leading `CurDir`: a `.` component of the pushed path stops being
at the start of the concatenated string and is normalized away. -/
def dropCur : RPath → RPath
  | PComp.curDir :: rest => rest
  | p => p

/-- `Path::join` (i.e. `PathBuf::push`) read at the component level: an
argument with a root replaces the receiver; joining onto the empty path
yields the argument; otherwise the component lists concatenate, with a
leading `.` component of the argument normalized away. -/
def join (p q : RPath) : RPath :=
  if hasRoot q then q
  else if p = [] then q
  else p ++ dropCur q

/-- `path.strip_prefix(TILDE)` from `src/lib.rs` (`TILDE = "~"`): the prefix
has the single component `Normal("~")`, so the match succeeds exactly when
the first component equals it, and the remainder is the tail. Returns
`none` for the `Err(StripPrefixError)` case. -/
def stripTilde : RPath → Option RPath
  | PComp.normal s :: rest => if s = "~" then some rest else none
  | _ => none

/-- The component the constant `TILDE` parses to. -/
def tildeComp : PComp := PComp.normal "~"

/-- `expand_tilde_with` / its `inner` from `src/lib.rs`:
`path.strip_prefix(TILDE).map_or_else(|_| path.into(), |stripped| home_dir.join(stripped).into())`. -/
def expand_tilde_with (path home_dir : RPath) : RPath :=
  match stripTilde path with
  | none => path
  | some stripped => join home_dir stripped

/-- The error enum `HomeDirError` from `src/lib.rs`. -/
inductive HomeDirError where
  | Empty
  | NotFounded
deriving DecidableEq, Repr

/-- `home_dir()` from `src/lib.rs`, parameterized by the outcome of the
external OS mechanism (`std::env::home_dir()` or `home::home_dir()`):
`let home_dir = mechanism().ok_or(HomeDirError::NotFounded)?;
 if home_dir.as_os_str().is_empty() { return Err(HomeDirError::Empty); }
 Ok(home_dir)`. -/
def home_dir (osHome : Option RPath) : Except HomeDirError RPath :=
  match osHome with
  | none => Except.error HomeDirError.NotFounded
  | some h => if h = [] then Except.error HomeDirError.Empty else Except.ok h

/-- `expand_tilde` from `src/lib.rs`:
`let home_dir = home_dir()?; Ok(expand_tilde_with(path, home_dir))`. -/
def expand_tilde (osHome : Option RPath) (path : RPath) : Except HomeDirError RPath :=
  match home_dir osHome with
  | Except.error e => Except.error e
  | Except.ok h => Except.ok (expand_tilde_with path h)

/-- Method `<Path as ExpandTilde>::expand_tilde_with` from `src/lib.rs`: it
delegates to the free function. -/
def ExpandTilde.expandTildeWith (p : RPath) (home : RPath) : RPath :=
  expand_tilde_with p home

/-- Method `<Path as ExpandTilde>::expand_tilde` from `src/lib.rs`: it
delegates to the free function. -/
def ExpandTilde.expandTilde (osHome : Option RPath) (p : RPath) : Except HomeDirError RPath :=
  expand_tilde osHome p

/-! Helper lemmas. -/

theorem stripTilde_none_of_head (p : RPath) (hp : p.head? ≠ some tildeComp) :
    stripTilde p = none := by
  match p with
  | [] => rfl
  | PComp.rootDir :: _ => rfl
  | PComp.curDir :: _ => rfl
  | PComp.parentDir :: _ => rfl
  | PComp.normal s :: rest =>
    have hs : s ≠ "~" := by
      intro h
      exact hp (by simp [h, tildeComp])
    simp [stripTilde, hs]

theorem stripTilde_some_inv (p s : RPath) (h : stripTilde p = some s) :
    p = tildeComp :: s := by
  match p with
  | [] => exact absurd h (by simp [stripTilde])
  | PComp.rootDir :: _ => exact absurd h (by simp [stripTilde])
  | PComp.curDir :: _ => exact absurd h (by simp [stripTilde])
  | PComp.parentDir :: _ => exact absurd h (by simp [stripTilde])
  | PComp.normal str :: rest =>
    by_cases hstr : str = "~"
    · subst hstr
      simp [stripTilde] at h
      rw [← h]
      rfl
    · exact absurd h (by simp [stripTilde, hstr])

theorem stripTilde_cons (r : RPath) : stripTilde (tildeComp :: r) = some r := by
  simp [stripTilde, tildeComp]

theorem expand_none (p h : RPath) (hp : stripTilde p = none) :
    expand_tilde_with p h = p := by
  unfold expand_tilde_with
  rw [hp]

theorem expand_some (p h s : RPath) (hp : stripTilde p = some s) :
    expand_tilde_with p h = join h s := by
  unfold expand_tilde_with
  rw [hp]

theorem expand_head_ne (q hd : RPath) (hq : q.head? ≠ some tildeComp) :
    expand_tilde_with q hd = q :=
  expand_none q hd (stripTilde_none_of_head q hq)

theorem dropCur_body (r : RPath) (hr : r.all isBodyComp = true) : dropCur r = r := by
  match r with
  | [] => rfl
  | PComp.rootDir :: t => rfl
  | PComp.curDir :: t =>
    exfalso
    simp [List.all_cons, isBodyComp] at hr
  | PComp.parentDir :: t => rfl
  | PComp.normal s :: t => rfl

theorem hasRoot_body (r : RPath) (hr : r.all isBodyComp = true) : hasRoot r = false := by
  match r with
  | [] => rfl
  | PComp.rootDir :: t =>
    exfalso
    simp [List.all_cons, isBodyComp] at hr
  | PComp.curDir :: t => rfl
  | PComp.parentDir :: t => rfl
  | PComp.normal s :: t => rfl

theorem join_nil_left (q : RPath) : join [] q = q := by
  unfold join
  split
  · rfl
  · simp

theorem join_body (h r : RPath) (hr : r.all isBodyComp = true) :
    join h r = if h = [] then r else h ++ r := by
  unfold join
  rw [hasRoot_body r hr, dropCur_body r hr]
  simp

/-! Claim theorems. -/

/-- C2: for every path `p` whose first component is not exactly the component
`~` (including the empty path and paths whose first component is of the form
`~something` such as `~user`), and for every home-directory value `h`,
`expand_tilde_with p h` returns `p` unchanged. -/
theorem c2_no_tilde_identity (p h : RPath) (hp : p.head? ≠ some tildeComp) :
    expand_tilde_with p h = p :=
  expand_head_ne p h hp

/-- C2 witness: the spec scenario `expand_with("~user/dir", "/home/user")`
leaves the path unchanged. -/
theorem c2_no_tilde_identity_witness :
    ([PComp.normal "~user", PComp.normal "dir"] : RPath).head? ≠ some tildeComp ∧
    expand_tilde_with [PComp.normal "~user", PComp.normal "dir"]
      [PComp.rootDir, PComp.normal "home", PComp.normal "user"]
      = [PComp.normal "~user", PComp.normal "dir"] :=
  ⟨by decide,
   c2_no_tilde_identity [PComp.normal "~user", PComp.normal "dir"]
     [PComp.rootDir, PComp.normal "home", PComp.normal "user"] (by decide)⟩

/-- C3: for every home-directory value `h`, expanding the path consisting of
only the component `~` returns exactly `h` (Rust compares paths by their
component sequences, so the trailing separator the byte-level `join` may
append is not part of the path value). -/
theorem c3_bare_tilde (h : RPath) : expand_tilde_with [tildeComp] h = h := by
  rw [expand_some [tildeComp] h [] (stripTilde_cons [])]
  unfold join
  by_cases hh : h = []
  · simp [hh, hasRoot]
  · simp [hh, hasRoot, dropCur]

/-- C7: if the result of `expand_tilde_with p h` does not begin with the
component `~`, then expanding that result again (with any home `h'`) returns
it unchanged. -/
theorem c7_idempotent (p h h' : RPath)
    (hq : (expand_tilde_with p h).head? ≠ some tildeComp) :
    expand_tilde_with (expand_tilde_with p h) h' = expand_tilde_with p h :=
  expand_head_ne (expand_tilde_with p h) h' hq

/-- C7 witness: expanding `~/docs` with home `/home/user` gives a result not
headed by `~`, and re-expanding it is a no-op. -/
theorem c7_idempotent_witness :
    (expand_tilde_with [tildeComp, PComp.normal "docs"]
        [PComp.rootDir, PComp.normal "home", PComp.normal "user"]).head?
      ≠ some tildeComp ∧
    expand_tilde_with
        (expand_tilde_with [tildeComp, PComp.normal "docs"]
          [PComp.rootDir, PComp.normal "home", PComp.normal "user"])
        [PComp.rootDir, PComp.normal "other"]
      = expand_tilde_with [tildeComp, PComp.normal "docs"]
          [PComp.rootDir, PComp.normal "home", PComp.normal "user"] :=
  ⟨by decide,
   c7_idempotent [tildeComp, PComp.normal "docs"]
     [PComp.rootDir, PComp.normal "home", PComp.normal "user"]
     [PComp.rootDir, PComp.normal "other"] (by decide)⟩

/-- C8: the `ExpandTilde` trait methods on `Path` return exactly the same
results as the corresponding free functions, for every path, home value and
resolver outcome. -/
theorem c8_trait_free_eq (p h : RPath) (osHome : Option RPath) :
    ExpandTilde.expandTildeWith p h = expand_tilde_with p h ∧
    ExpandTilde.expandTilde osHome p = expand_tilde osHome p :=
  ⟨rfl, rfl⟩

/-- C10: `expand_tilde_with` does not validate its `home_dir` argument: for a
path `~` followed by a non-empty remainder `r`, expanding with the empty home
directory succeeds and returns `r` itself, a relative path. -/
theorem c10_empty_home (r : RPath) (_hne : r ≠ []) (hr : r.all isBodyComp = true) :
    expand_tilde_with (tildeComp :: r) [] = r ∧ hasRoot r = false := by
  constructor
  · rw [expand_some (tildeComp :: r) [] r (stripTilde_cons r)]
    exact join_nil_left r
  · exact hasRoot_body r hr

/-- C10 witness: `expand_with("~/some/dir", "")` yields the relative path
`some/dir`. -/
theorem c10_empty_home_witness :
    ([PComp.normal "some", PComp.normal "dir"] : RPath) ≠ [] ∧
    ([PComp.normal "some", PComp.normal "dir"] : RPath).all isBodyComp = true ∧
    expand_tilde_with [tildeComp, PComp.normal "some", PComp.normal "dir"] []
        = [PComp.normal "some", PComp.normal "dir"] ∧
    hasRoot [PComp.normal "some", PComp.normal "dir"] = false :=
  ⟨by decide, by decide,
   (c10_empty_home [PComp.normal "some", PComp.normal "dir"] (by decide) (by decide)).1,
   (c10_empty_home [PComp.normal "some", PComp.normal "dir"] (by decide) (by decide)).2⟩

/-- C1 counterexample: with home `""` (the empty path) and remainder `"./b"`,
`Path::new("~").join("./b")` is `"~/./b"`, whose components are `~, b` (a
mid-path `.` is normalized away), so expansion strips `~` and joins `""` with
`b`, giving `b` — while `join("", "./b")` is `"./b"`, whose components are
`., b`.  The two results are different path values. -/
theorem c1_join_counterexample :
    expand_tilde_with (join [tildeComp] [PComp.curDir, PComp.normal "b"]) []
      ≠ join ([] : RPath) [PComp.curDir, PComp.normal "b"] := by
  decide

/-- C1 (amended): for every home value `h` and every non-empty canonical
remainder `r`, provided `h` is non-empty or `r` does not begin with the
current-directory component `.`, expanding `join("~", r)` with home `h`
yields `join(h, r)`. -/
theorem c1_expand_join_amended (h r : RPath) (hwf : wfPath r = true) (_hne : r ≠ [])
    (hcond : h ≠ [] ∨ r.head? ≠ some PComp.curDir) :
    expand_tilde_with (join [tildeComp] r) h = join h r := by
  match r with
  | [] =>
    exact absurd rfl _hne
  | PComp.rootDir :: t =>
    have h1 : join [tildeComp] (PComp.rootDir :: t) = PComp.rootDir :: t := by
      simp [join, hasRoot]
    rw [h1, expand_none (PComp.rootDir :: t) h rfl]
    simp [join, hasRoot]
  | PComp.curDir :: t =>
    have hh : h ≠ [] := by
      rcases hcond with hh | hx
      · exact hh
      · exact absurd rfl hx
    have ht : t.all isBodyComp = true := by
      have h2 : (headComp PComp.curDir && t.all isBodyComp) = true := hwf
      exact ((Bool.and_eq_true _ _).mp h2).2
    have h1 : join [tildeComp] (PComp.curDir :: t) = tildeComp :: t := by
      simp [join, hasRoot, dropCur]
    rw [h1, expand_some _ h t (stripTilde_cons t)]
    unfold join
    rw [hasRoot_body t ht, dropCur_body t ht]
    simp [hh, hasRoot, dropCur]
  | PComp.parentDir :: t =>
    have h1 : join [tildeComp] (PComp.parentDir :: t) = tildeComp :: PComp.parentDir :: t := by
      simp [join, hasRoot, dropCur]
    rw [h1, expand_some _ h _ (stripTilde_cons (PComp.parentDir :: t))]
  | PComp.normal s :: t =>
    have h1 : join [tildeComp] (PComp.normal s :: t) = tildeComp :: PComp.normal s :: t := by
      simp [join, hasRoot, dropCur]
    rw [h1, expand_some _ h _ (stripTilde_cons (PComp.normal s :: t))]

/-- C1 witness: the spec scenario `expand_with(join("~", "some/dir"),
"/home/user") == join("/home/user", "some/dir")`. -/
theorem c1_expand_join_amended_witness :
    wfPath [PComp.normal "some", PComp.normal "dir"] = true ∧
    ([PComp.normal "some", PComp.normal "dir"] : RPath) ≠ [] ∧
    expand_tilde_with
        (join [tildeComp] [PComp.normal "some", PComp.normal "dir"])
        [PComp.rootDir, PComp.normal "home", PComp.normal "user"]
      = join [PComp.rootDir, PComp.normal "home", PComp.normal "user"]
          [PComp.normal "some", PComp.normal "dir"] :=
  ⟨by decide, by decide,
   c1_expand_join_amended [PComp.rootDir, PComp.normal "home", PComp.normal "user"]
     [PComp.normal "some", PComp.normal "dir"] (by decide) (by decide)
     (Or.inl (by decide))⟩

/-- C4: the resolver returns `Empty` exactly when the OS mechanism yields the
zero-length path, `NotFounded` exactly when it yields no value, and on
success a non-empty path. -/
theorem c4_home_dir_errors (osHome : Option RPath) :
    (home_dir osHome = Except.error HomeDirError.Empty ↔ osHome = some []) ∧
    (home_dir osHome = Except.error HomeDirError.NotFounded ↔ osHome = none) ∧
    ∀ h, home_dir osHome = Except.ok h → h ≠ [] := by
  match osHome with
  | none =>
    refine ⟨?_, ?_, ?_⟩
    · simp [home_dir]
    · simp [home_dir]
    · intro h hcontra
      exact absurd hcontra (by simp [home_dir])
  | some v =>
    by_cases hv : v = []
    · subst hv
      refine ⟨?_, ?_, ?_⟩
      · simp [home_dir]
      · simp [home_dir]
      · intro h hcontra
        exact absurd hcontra (by simp [home_dir])
    · refine ⟨?_, ?_, ?_⟩
      · simp [home_dir, hv]
      · simp [home_dir, hv]
      · intro h hok
        have : v = h := by
          have h2 : Except.ok (ε := HomeDirError) v = Except.ok h := by
            rw [← hok]
            simp [home_dir, hv]
          exact Except.ok.inj h2
        rw [← this]
        exact hv

/-- C4 witness: the successful case at the concrete OS result `/home/user`
yields that non-empty path. -/
theorem c4_home_dir_errors_witness :
    home_dir (some [PComp.rootDir, PComp.normal "home", PComp.normal "user"])
        = Except.ok [PComp.rootDir, PComp.normal "home", PComp.normal "user"] ∧
    ([PComp.rootDir, PComp.normal "home", PComp.normal "user"] : RPath) ≠ [] :=
  ⟨by rfl,
   (c4_home_dir_errors
       (some [PComp.rootDir, PComp.normal "home", PComp.normal "user"])).2.2
     [PComp.rootDir, PComp.normal "home", PComp.normal "user"] (by rfl)⟩

/-- C5: `expand_tilde` first resolves the home directory; a resolver error is
propagated unchanged and no expansion happens, and a resolver success `h`
makes the result exactly `expand_tilde_with path h`. -/
theorem c5_expand_tilde_propagation (osHome : Option RPath) (p : RPath) :
    (∀ e, home_dir osHome = Except.error e → expand_tilde osHome p = Except.error e) ∧
    ∀ h, home_dir osHome = Except.ok h →
      expand_tilde osHome p = Except.ok (expand_tilde_with p h) := by
  constructor
  · intro e he
    unfold expand_tilde
    rw [he]
  · intro h hh
    unfold expand_tilde
    rw [hh]

/-- C5 witness: with no OS home value, `expand_tilde` returns the resolver's
`NotFounded` error unchanged. -/
theorem c5_expand_tilde_propagation_witness :
    home_dir none = Except.error HomeDirError.NotFounded ∧
    expand_tilde none [tildeComp, PComp.normal "docs"]
      = Except.error HomeDirError.NotFounded :=
  ⟨by rfl,
   (c5_expand_tilde_propagation none [tildeComp, PComp.normal "docs"]).1
     HomeDirError.NotFounded (by rfl)⟩

theorem wf_of_all_body (s : RPath) (hs : s.all isBodyComp = true) :
    wfPath s = true := by
  match s with
  | [] => rfl
  | c :: t =>
    have h2 := (Bool.and_eq_true _ _).mp hs
    have hhead : headComp c = true := by
      unfold headComp
      rw [h2.1]
      simp
    have hgoal : (headComp c && t.all isBodyComp) = true := by
      rw [hhead, h2.2]
      rfl
    exact hgoal

theorem wf_append (h s : RPath) (hh : wfPath h = true) (hne : h ≠ [])
    (hs : s.all isBodyComp = true) : wfPath (h ++ s) = true := by
  match h with
  | [] => exact absurd rfl hne
  | c :: t =>
    have h2 : (headComp c && t.all isBodyComp) = true := hh
    have h3 := (Bool.and_eq_true _ _).mp h2
    have hall : (t ++ s).all isBodyComp = true := by
      rw [List.all_append, h3.2, hs]
      rfl
    have hgoal : (headComp c && (t ++ s).all isBodyComp) = true := by
      rw [h3.1, hall]
      rfl
    exact hgoal

theorem wf_join (h s : RPath) (hh : wfPath h = true)
    (hs : s.all isBodyComp = true) : wfPath (join h s) = true := by
  unfold join
  rw [hasRoot_body s hs, dropCur_body s hs]
  by_cases hne : h = []
  · simp [hne]
    exact wf_of_all_body s hs
  · simp [hne]
    exact wf_append h s hh hne hs

/-- C6: `expand_tilde_with` is a total function (its Lean embedding needs no
error or partiality escape), and for canonical inputs its result is again a
canonical, well-formed path value. -/
theorem c6_expand_total_wf (p h : RPath) (hp : wfPath p = true)
    (hh : wfPath h = true) : wfPath (expand_tilde_with p h) = true := by
  rcases hcase : stripTilde p with _ | s
  · rw [expand_none p h hcase]
    exact hp
  · rw [expand_some p h s hcase]
    have hps := stripTilde_some_inv p s hcase
    have hs : s.all isBodyComp = true := by
      rw [hps] at hp
      have h2 : (headComp tildeComp && s.all isBodyComp) = true := hp
      exact ((Bool.and_eq_true _ _).mp h2).2
    exact wf_join h s hh hs

/-- C6 witness: expanding the canonical path `~/docs` with the canonical home
`/home/user` yields a canonical path. -/
theorem c6_expand_total_wf_witness :
    wfPath [tildeComp, PComp.normal "docs"] = true ∧
    wfPath [PComp.rootDir, PComp.normal "home", PComp.normal "user"] = true ∧
    wfPath (expand_tilde_with [tildeComp, PComp.normal "docs"]
      [PComp.rootDir, PComp.normal "home", PComp.normal "user"]) = true :=
  ⟨by decide, by decide,
   c6_expand_total_wf [tildeComp, PComp.normal "docs"]
     [PComp.rootDir, PComp.normal "home", PComp.normal "user"]
     (by decide) (by decide)⟩

/-- C9: exactly one substitution, with the home value inserted verbatim: for
a path `~ :: r`, the result is `h ++ r` (or `r` when `h` is empty), so the
remainder `r` — any `~` components of it included — survives as a suffix
unexpanded, and a home value that itself begins with `~` makes the result
begin with `~`. -/
theorem c9_single_substitution (h r : RPath) (hr : r.all isBodyComp = true) :
    expand_tilde_with (tildeComp :: r) h = (if h = [] then r else h ++ r) ∧
    List.IsSuffix r (expand_tilde_with (tildeComp :: r) h) ∧
    (h.head? = some tildeComp →
      (expand_tilde_with (tildeComp :: r) h).head? = some tildeComp) := by
  have hmain : expand_tilde_with (tildeComp :: r) h = if h = [] then r else h ++ r := by
    rw [expand_some (tildeComp :: r) h r (stripTilde_cons r)]
    exact join_body h r hr
  refine ⟨hmain, ?_, ?_⟩
  · rw [hmain]
    by_cases hne : h = []
    · rw [if_pos hne]
    · rw [if_neg hne]
      exact List.suffix_append h r
  · intro hhead
    have hne : h ≠ [] := by
      intro hnil
      rw [hnil] at hhead
      exact Option.noConfusion hhead
    rw [hmain, if_neg hne]
    match h, hhead with
    | c :: t, hhead =>
      rw [List.cons_append]
      exact hhead

/-- C9 witness: `~/~/dir` expanded with the home `~user` (a path whose sole
component begins with a tilde character) keeps the inner `~` component and
begins with the inserted first home component. -/
theorem c9_single_substitution_witness :
    ([tildeComp, PComp.normal "dir"] : RPath).all isBodyComp = true ∧
    expand_tilde_with (tildeComp :: [tildeComp, PComp.normal "dir"]) [tildeComp]
      = [tildeComp, tildeComp, PComp.normal "dir"] ∧
    List.IsSuffix [tildeComp, PComp.normal "dir"]
      (expand_tilde_with (tildeComp :: [tildeComp, PComp.normal "dir"]) [tildeComp]) ∧
    (expand_tilde_with (tildeComp :: [tildeComp, PComp.normal "dir"])
      [tildeComp]).head? = some tildeComp := by
  have hc := c9_single_substitution [tildeComp] [tildeComp, PComp.normal "dir"] (by decide)
  refine ⟨by decide, ?_, hc.2.1, hc.2.2 (by decide)⟩
  rw [hc.1]
  decide
